import Mathlib

/-!
Verification development for the `myapp` module auto-import system
(GO-ImportAuto).  The Go source is shallowly embedded: the dependency
resolver `resolveDependencies`, the lifecycle manager `ModuleManager.Update`,
the router publisher `rebuildRouter`/`handler`, and the environment-variable
expander `utils.ExpandEnv` become executable Lean functions, and the spec's
claims are settled as theorems about them.

Possible non-termination of the Go recursion (there is no cycle detection in
`resolveDependencies`) is modelled with an explicit fuel parameter: the value
`RRes.fuelOut` marks a computation that exhausted its recursion budget, and
"the Go program terminates" is rendered as "some fuel yields a definitive
result".
-/

namespace ImportAuto

abbrev Name := String

/-- Behavioural model of one registered module (one entry of
`registry.Modules`): its declared dependencies (`Deps()`), whether its
`Init` returns nil, and the route paths its `RegisterRoutes` registers. -/
structure MUnit where
  deps : List Name
  initOk : Bool
  routes : List String
deriving DecidableEq

/-- The registry `registry.Modules`: module name to module behaviour.  The Go
map is only ever looked up by key (never iterated), so an association list is
a faithful model. -/
abbrev Registry := List (Name × MUnit)

/-- Association-list lookup, modelling Go map indexing `m[k]` (with the
`, ok` form). -/
def alookup {α : Type} : List (Name × α) → Name → Option α
  | [], _ => none
  | (k, v) :: rest, n => if n = k then some v else alookup rest n

/-- Result of a fuelled computation: a value, the Go error
`unknown module: name`, or fuel exhaustion (the marker for a Go execution
that has not terminated within the given recursion budget). -/
inductive RRes (α : Type) where
  | ok (a : α)
  | err (name : Name)
  | fuelOut
deriving DecidableEq

/-- A `for _, dep := range ...` loop that runs the visitor `v` on each name
in turn, threading the `result` accumulator and aborting on the first error.
This is both the dependency loop inside `visit` and the top-level
`for _, m := range modNames` loop of `resolveDependencies` (main.go). -/
def visitList (v : Name → List Name → RRes (List Name)) :
    List Name → List Name → RRes (List Name)
  | [], acc => .ok acc
  | d :: ds, acc =>
    match v d acc with
    | .ok acc2 => visitList v ds acc2
    | .err e => .err e
    | .fuelOut => .fuelOut

/-- The inner closure `visit` of `resolveDependencies` (main.go):
memo check on `visited` (which is always exactly the set of names already in
`result`, since the Go code sets `visited[name] = true` and appends to
`result` together), registry lookup, recursive visit of `tmp.Deps()`, then
append `name`.  `acc` is the `result` slice.  The Go recursion is unbounded;
each nesting level consumes one unit of fuel. -/
def visitF (reg : Registry) : Nat → Name → List Name → RRes (List Name)
  | 0, _, _ => .fuelOut
  | fuel + 1, name, acc =>
    if name ∈ acc then .ok acc
    else
      match alookup reg name with
      | none => .err name
      | some u =>
        match visitList (visitF reg fuel) u.deps acc with
        | .ok acc2 => .ok (acc2 ++ [name])
        | .err e => .err e
        | .fuelOut => .fuelOut

/-- `resolveDependencies(modNames)` (main.go): run the DFS from each
requested name, starting from an empty `result`. -/
def resolveDependencies (reg : Registry) (fuel : Nat) (modNames : List Name) :
    RRes (List Name) :=
  visitList (visitF reg fuel) modNames []

/-- The registry of the actual program (`registry/registry.go` together with
the `Deps`, `Init` and `RegisterRoutes` implementations in `modules/`):
`user` and `auth` have no dependencies, `order` depends on `auth`; every
`Init` returns nil; each module registers one route. -/
def theRegistry : Registry :=
  [("user", ⟨[], true, ["/user"]⟩),
   ("auth", ⟨[], true, ["/auth"]⟩),
   ("order", ⟨["auth"], true, ["/order"]⟩)]

example : resolveDependencies theRegistry 5 ["order"] = .ok ["auth", "order"] := by decide

/-! ## The lifecycle manager `ModuleManager.Update` -/

/-- A live module instance.  In Go an instance is a pointer returned by the
factory; two instances are "the same" exactly when they are the same pointer.
We model a pointer as the module name together with the reconciliation
round (`birth`) in which `newFn()` created it, which separates all distinct
allocations arising in the modelled runs. -/
structure Inst where
  name : Name
  birth : Nat
deriving DecidableEq

/-- The manager state `ModuleManager.active`: module name to live instance. -/
abbrev Active := List (Name × Inst)

/-- An observable lifecycle side effect of `Update`: a call to a module's
`Init` (with its success bit) or to its `Shutdown`. -/
inductive Event where
  | initCalled (name : Name) (ok : Bool)
  | shutdownCalled (name : Name)
deriving DecidableEq

/-- Everything one call of `ModuleManager.Update` produces: the Go return
value is only `router` (the `*gin.Engine`, modelled by its list of
registered route paths); `newActive` is the state written to `m.active`;
`events` records the `Init`/`Shutdown` calls (the per-unit outcomes are
otherwise only printed to stdout); `resolveErr` is set when
`resolveDependencies` failed (in which case Go returns a fresh
`gin.Default()` — an engine with no routes — and leaves `m.active` alone). -/
structure UpdateResult where
  router : List String
  newActive : Active
  events : List Event
  resolveErr : Option Name
deriving DecidableEq

/-- The route paths module `n` registers (`RegisterRoutes`): an instance
created by the factory for `n` always registers the routes of `n`'s module
type. -/
def routesOf (reg : Registry) (n : Name) : List String :=
  match alookup reg n with
  | some u => u.routes
  | none => []

/-- The "start new modules" loop of `Update` (main.go lines 108-124).  The
loop reads only `m.active` (the old set) and the registry; its accumulators
`newActive`, the engine and the log are written but never read, so the loop
is the per-name concatenation of: keep an existing instance and re-register
its routes; or construct, `Init` (recording success), register routes and
add on success, skip on failure (`continue`); names absent from the registry
are skipped (unreachable after a successful resolve). -/
def startLoop (reg : Registry) (oldA : Active) (birth : Nat) :
    List Name → Active × List String × List Event
  | [] => ([], [], [])
  | name :: rest =>
    let (na, r, ev) := startLoop reg oldA birth rest
    match alookup oldA name with
    | some inst => ((name, inst) :: na, routesOf reg name ++ r, ev)
    | none =>
      match alookup reg name with
      | some u =>
        if u.initOk then
          ((name, ⟨name, birth⟩) :: na, u.routes ++ r, .initCalled name true :: ev)
        else
          (na, r, .initCalled name false :: ev)
      | none => (na, r, ev)

/-- The "stop no-longer-needed modules" loop of `Update` (main.go lines
126-139), which walks `ordered` backwards: a name still in `newActive` is
skipped; otherwise, if it is in the old `m.active`, its `Shutdown` is
called.  (The list argument is `ordered.reverse`.) -/
def shutLoop (oldA newA : Active) : List Name → List Event
  | [] => []
  | name :: rest =>
    (if (alookup newA name).isSome then []
     else
       match alookup oldA name with
       | some _ => [Event.shutdownCalled name]
       | none => []) ++ shutLoop oldA newA rest

/-- `ModuleManager.Update(cfg)` (main.go lines 94-143): resolve the
requested modules; on a resolution error print it and return a fresh
`gin.Default()` without touching `m.active`; otherwise run the start loop
over the resolved order, run the shutdown loop over the reversed resolved
order, store the new active set and return the freshly built engine.
`none` models a call that never returns (resolution ran out of fuel). -/
def Update (reg : Registry) (fuel : Nat) (mods : List Name) (active : Active)
    (birth : Nat) : Option UpdateResult :=
  match resolveDependencies reg fuel mods with
  | .fuelOut => none
  | .err e => some ⟨[], active, [], some e⟩
  | .ok ordered =>
    let (na, r, ev) := startLoop reg active birth ordered
    let ev2 := shutLoop active na ordered.reverse
    some ⟨r, na, ev ++ ev2, none⟩

/-! ## The published surface (`router` global, `rebuildRouter`, `handler`) -/

/-- The globals of main.go that survive between reconciliations: the
published engine `router` (read by every incoming request) and the
manager's active set. -/
structure SysState where
  published : List String
  active : Active
deriving DecidableEq

/-- `rebuildRouter(cfg)` (main.go lines 174-178): run `Update` and publish
whatever engine it returns — including the fresh empty engine produced when
resolution failed. -/
def rebuildRouter (reg : Registry) (fuel : Nat) (mods : List Name)
    (s : SysState) (birth : Nat) : Option SysState :=
  match Update reg fuel mods s.active birth with
  | none => none
  | some res => some ⟨res.router, res.newActive⟩

/-- `handler()` (main.go lines 180-184): what a dispatched request reads —
the currently published engine. -/
def handler (s : SysState) : List String :=
  s.published

/-! ## Environment-variable expansion (`utils/env.go`) -/

/-- A character of the regex class `[A-Za-z0-9_]` (ASCII letters, digits,
underscore — the class in `envPattern`). -/
def isKeyChar (c : Char) : Bool :=
  c.isAlphanum || c = '_'

/-- A character of the regex class `[^}]` (anything but a closing brace). -/
def notRBrace (c : Char) : Bool :=
  !(c = '}')

/-- Parse the part of an `envPattern` match after the opening `${`:
a nonempty run of key characters, then either `}` (no default) or
`:` followed by a nonempty run of non-`}` characters and `}`.
Returns the key, the optional default and the rest of the input.
Greediness of `[A-Za-z0-9_]+` and `[^}]+` amounts to maximal munch here
because neither class can contain the character that must follow it. -/
def parseVar (l : List Char) : Option (List Char × Option (List Char) × List Char) :=
  if l.takeWhile isKeyChar = [] then none
  else
    match l.dropWhile isKeyChar with
    | '}' :: r2 => some (l.takeWhile isKeyChar, none, r2)
    | ':' :: r2 =>
      if r2.takeWhile notRBrace = [] then none
      else
        match r2.dropWhile notRBrace with
        | '}' :: r4 => some (l.takeWhile isKeyChar,
            some (r2.takeWhile notRBrace), r4)
        | _ => none
    | _ => none

/-- The replacement function passed to `ReplaceAllStringFunc` in
`ExpandEnv`: use the environment value when it is nonempty, else the
default when that is nonempty, else the original matched text.
`env` is `os.Getenv`, which returns `""` both for unset variables and for
variables set to the empty string. -/
def replaceVar (env : String → String) (key : List Char)
    (dflt : Option (List Char)) : List Char :=
  let v := (env (String.mk key)).data
  let defStr := match dflt with | some d => d | none => []
  if v ≠ [] then v
  else if defStr ≠ [] then defStr
  else
    '$' :: '{' :: key ++
      (match dflt with | some d => ':' :: d | none => []) ++ ['}']

theorem parseVar_rest_length {l key dflt r} (h : parseVar l = some (key, dflt, r)) :
    r.length ≤ l.length := by
  have hsplit : (l.takeWhile isKeyChar).length + (l.dropWhile isKeyChar).length
      = l.length := by
    rw [← List.length_append, List.takeWhile_append_dropWhile]
  unfold parseVar at h
  split at h
  · exact Option.noConfusion h
  · split at h
    case _ r2 heq =>
      simp only [Option.some.injEq, Prod.mk.injEq] at h
      obtain ⟨-, -, hr⟩ := h
      subst hr
      rw [heq] at hsplit
      simp only [List.length_cons] at hsplit
      omega
    case _ r2 heq =>
      have hsplit2 : (r2.takeWhile notRBrace).length +
          (r2.dropWhile notRBrace).length = r2.length := by
        rw [← List.length_append, List.takeWhile_append_dropWhile]
      rw [heq] at hsplit
      simp only [List.length_cons] at hsplit
      split at h
      · exact Option.noConfusion h
      · split at h
        case _ r4 heq2 =>
          simp only [Option.some.injEq, Prod.mk.injEq] at h
          obtain ⟨-, -, hr⟩ := h
          subst hr
          rw [heq2] at hsplit2
          simp only [List.length_cons] at hsplit2
          omega
        case _ => exact Option.noConfusion h
    case _ => exact Option.noConfusion h

/-- `ExpandEnv` (utils/env.go): scan the input left to right; at each
position where `envPattern` matches (the match necessarily begins with
`${`), emit the replacement and continue after the match (replacements are
not rescanned, as with `ReplaceAllStringFunc`); otherwise copy one
character.  A failed match attempt at a `$` cannot hide a later match,
since every match begins with `$`. -/
def expandEnvL (env : String → String) : List Char → List Char
  | [] => []
  | c :: rest =>
    if c = '$' then
      match hr : rest with
      | '{' :: r2 =>
        match h : parseVar r2 with
        | some (key, dflt, rest2) => replaceVar env key dflt ++ expandEnvL env rest2
        | none => c :: expandEnvL env rest
      | _ => c :: expandEnvL env rest
    else c :: expandEnvL env rest
termination_by l => l.length
decreasing_by
  all_goals try subst hr
  all_goals try have := parseVar_rest_length h
  all_goals simp only [List.length_cons]
  all_goals omega

/-- `ExpandEnv` on Go strings. -/
def ExpandEnv (env : String → String) (s : String) : String :=
  String.mk (expandEnvL env s.data)

/-! ## Reachability in the dependency graph, positions in a list -/

/-- `Reaches reg x y`: module `y` is a (transitive, proper) dependency of
module `x` according to the registry's `Deps()` declarations. -/
inductive Reaches (reg : Registry) : Name → Name → Prop where
  | step {x u d} : alookup reg x = some u → d ∈ u.deps → Reaches reg x d
  | trans {x y z} : Reaches reg x y → Reaches reg y z → Reaches reg x z

/-- Position of the first occurrence of `a` in a list (length of the list
when absent). -/
def idxOf (a : Name) : List Name → Nat
  | [] => 0
  | b :: l => if a = b then 0 else idxOf a l + 1

theorem idxOf_lt_length {a : Name} : ∀ {l : List Name}, a ∈ l → idxOf a l < l.length := by
  intro l
  induction l with
  | nil => intro h; cases h
  | cons b l ih =>
    intro h
    by_cases hab : a = b
    · simp [idxOf, hab]
    · have : a ∈ l := by
        cases h with
        | head => exact absurd rfl hab
        | tail _ h => exact h
      simp only [idxOf, if_neg hab, List.length_cons]
      exact Nat.succ_lt_succ (ih this)

theorem idxOf_append_left {a : Name} :
    ∀ {l : List Name} (t : List Name), a ∈ l → idxOf a (l ++ t) = idxOf a l := by
  intro l
  induction l with
  | nil => intro t h; cases h
  | cons b l ih =>
    intro t h
    by_cases hab : a = b
    · simp [idxOf, hab]
    · have : a ∈ l := by
        cases h with
        | head => exact absurd rfl hab
        | tail _ h => exact h
      simp only [List.cons_append, idxOf, if_neg hab]
      exact congrArg (fun k => k + 1) (ih t this)

theorem idxOf_append_right {a : Name} :
    ∀ {l : List Name} (t : List Name), a ∉ l → idxOf a (l ++ t) = l.length + idxOf a t := by
  intro l
  induction l with
  | nil => intro t _; simp
  | cons b l ih =>
    intro t h
    have hab : ¬(a = b) := fun he => h (he ▸ List.mem_cons_self b l)
    have : a ∉ l := fun hm => h (List.mem_cons_of_mem b hm)
    simp only [List.cons_append, idxOf, if_neg hab, List.length_cons]
    have hih : idxOf a (List.append l t) = l.length + idxOf a t := ih t this
    rw [hih]
    omega

/-- The `result` invariant maintained by `visit`: every module already in
the list has all of its direct dependencies in the list, strictly before
its own first occurrence. -/
def GoodAcc (reg : Registry) (acc : List Name) : Prop :=
  ∀ x ∈ acc, ∀ u, alookup reg x = some u →
    ∀ d ∈ u.deps, d ∈ acc ∧ idxOf d acc < idxOf x acc

/-- Every module in the list has a registry entry. -/
def RegdAcc (reg : Registry) (acc : List Name) : Prop :=
  ∀ x ∈ acc, (alookup reg x).isSome

theorem good_reaches {reg : Registry} {L : List Name} (hg : GoodAcc reg L)
    {x y : Name} (h : Reaches reg x y) :
    x ∈ L → y ∈ L ∧ idxOf y L < idxOf x L := by
  induction h with
  | step hlk hd => intro hx; exact hg _ hx _ hlk _ hd
  | trans h1 h2 ih1 ih2 =>
    intro hx
    obtain ⟨hy, hiy⟩ := ih1 hx
    obtain ⟨hz, hiz⟩ := ih2 hy
    exact ⟨hz, lt_trans hiz hiy⟩

theorem good_no_self_reach {reg : Registry} {L : List Name} (hg : GoodAcc reg L)
    {x : Name} (hx : x ∈ L) : ¬ Reaches reg x x :=
  fun h => absurd (good_reaches hg h hx).2 (lt_irrefl _)

/-- What one successful `visit` call guarantees about its output `result`
relative to its input: the invariants are preserved and the list only
grows at the end. -/
def VisitExtends (reg : Registry) (acc acc2 : List Name) : Prop :=
  acc2.Nodup ∧ GoodAcc reg acc2 ∧ RegdAcc reg acc2 ∧ ∃ t, acc2 = acc ++ t

theorem visitList_ok_inv {reg : Registry} {v : Name → List Name → RRes (List Name)}
    (hv : ∀ name acc acc', v name acc = .ok acc' →
      acc.Nodup → GoodAcc reg acc → RegdAcc reg acc →
      VisitExtends reg acc acc' ∧ name ∈ acc' ∧
        (∀ x ∈ acc', x ∈ acc ∨ x = name ∨ Reaches reg name x)) :
    ∀ ds acc acc', visitList v ds acc = .ok acc' →
      acc.Nodup → GoodAcc reg acc → RegdAcc reg acc →
      VisitExtends reg acc acc' ∧ (∀ d ∈ ds, d ∈ acc') ∧
        (∀ x ∈ acc', x ∈ acc ∨ ∃ d ∈ ds, x = d ∨ Reaches reg d x) := by
  intro ds
  induction ds with
  | nil =>
    intro acc acc' h hnd hg hr
    simp only [visitList] at h
    injection h with h2
    subst h2
    exact ⟨⟨hnd, hg, hr, [], by simp⟩, by simp, fun x hx => Or.inl hx⟩
  | cons d ds ih =>
    intro acc acc' h hnd hg hr
    simp only [visitList] at h
    cases hv0 : v d acc with
    | ok acc1 =>
      simp only [hv0] at h
      obtain ⟨⟨hnd1, hg1, hr1, t1, ht1⟩, hdmem, hreach1⟩ := hv d acc acc1 hv0 hnd hg hr
      obtain ⟨⟨hnd2, hg2, hr2, t2, ht2⟩, hdsmem, hreach2⟩ := ih acc1 acc' h hnd1 hg1 hr1
      refine ⟨⟨hnd2, hg2, hr2, t1 ++ t2, by rw [ht2, ht1, List.append_assoc]⟩, ?_, ?_⟩
      · intro d' hd'
        rcases List.mem_cons.mp hd' with rfl | hd's
        · rw [ht2]; exact List.mem_append_left _ hdmem
        · exact hdsmem d' hd's
      · intro x hx
        rcases hreach2 x hx with hx1 | ⟨d', hd', hcase⟩
        · rcases hreach1 x hx1 with hacc | hcase1
          · exact Or.inl hacc
          · exact Or.inr ⟨d, List.mem_cons_self _ _, hcase1⟩
        · exact Or.inr ⟨d', List.mem_cons_of_mem _ hd', hcase⟩
    | err e =>
      simp only [hv0] at h
      cases h
    | fuelOut =>
      simp only [hv0] at h
      cases h

theorem visitF_ok_inv (reg : Registry) :
    ∀ fuel name acc acc', visitF reg fuel name acc = .ok acc' →
      acc.Nodup → GoodAcc reg acc → RegdAcc reg acc →
      VisitExtends reg acc acc' ∧ name ∈ acc' ∧
        (∀ x ∈ acc', x ∈ acc ∨ x = name ∨ Reaches reg name x) := by
  intro fuel
  induction fuel with
  | zero =>
    intro name acc acc' h
    simp only [visitF] at h
    cases h
  | succ fuel ih =>
    intro name acc acc' h hnd hg hr
    simp only [visitF] at h
    by_cases hmem : name ∈ acc
    · rw [if_pos hmem] at h
      injection h with h2
      subst h2
      exact ⟨⟨hnd, hg, hr, [], by simp⟩, hmem, fun x hx => Or.inl hx⟩
    · rw [if_neg hmem] at h
      cases hlk : alookup reg name with
      | none =>
        simp only [hlk] at h
        cases h
      | some u =>
        simp only [hlk] at h
        cases hvl : visitList (visitF reg fuel) u.deps acc with
        | ok acc2 =>
          simp only [hvl] at h
          injection h with h2
          subst h2
          obtain ⟨⟨hnd2, hg2, hr2, t2, ht2⟩, hdeps, hreach⟩ :=
            visitList_ok_inv ih u.deps acc acc2 hvl hnd hg hr
          have hstep : ∀ d ∈ u.deps, Reaches reg name d :=
            fun d hd => Reaches.step hlk hd
          have hnin2 : name ∉ acc2 := by
            intro hin
            rcases hreach name hin with h1 | ⟨d, hd, h2⟩
            · exact hmem h1
            · have hcyc : Reaches reg name name := by
                rcases h2 with rfl | h2
                · exact hstep _ hd
                · exact Reaches.trans (hstep d hd) h2
              exact good_no_self_reach hg2 hin hcyc
          refine ⟨⟨?_, ?_, ?_, t2 ++ [name], by rw [ht2, List.append_assoc]⟩, ?_, ?_⟩
          · rw [List.nodup_append]
            refine ⟨hnd2, List.nodup_singleton _, ?_⟩
            intro a ha hb
            rw [List.mem_singleton] at hb
            subst hb
            exact hnin2 ha
          · intro x hx u' hlk' d hd
            rcases List.mem_append.mp hx with hx2 | hx1
            · obtain ⟨hdin, hidx⟩ := hg2 x hx2 u' hlk' d hd
              exact ⟨List.mem_append_left _ hdin,
                by rw [idxOf_append_left [name] hdin, idxOf_append_left [name] hx2]
                   exact hidx⟩
            · have hxname : x = name := by simpa using hx1
              rw [hxname] at hlk' ⊢
              have hu' : u' = u := Option.some.inj (hlk'.symm.trans hlk)
              subst hu'
              have hdin : d ∈ acc2 := hdeps d hd
              refine ⟨List.mem_append_left _ hdin, ?_⟩
              rw [idxOf_append_left [name] hdin, idxOf_append_right [name] hnin2]
              have := idxOf_lt_length hdin
              simp only [idxOf, if_pos rfl]
              omega
          · intro x hx
            rcases List.mem_append.mp hx with hx2 | hx1
            · exact hr2 x hx2
            · have hxn : x = name := by simpa using hx1
              rw [hxn, hlk]
              rfl
          · exact List.mem_append_right _ (by simp)
          · intro x hx
            rcases List.mem_append.mp hx with hx2 | hx1
            · rcases hreach x hx2 with h1 | ⟨d, hd, h2⟩
              · exact Or.inl h1
              · refine Or.inr (Or.inr ?_)
                rcases h2 with rfl | h2
                · exact hstep _ hd
                · exact Reaches.trans (hstep d hd) h2
            · exact Or.inr (Or.inl (by simpa using hx1))
        | err e =>
          simp only [hvl] at h
          cases h
        | fuelOut =>
          simp only [hvl] at h
          cases h

/-- Specification of a successful `resolveDependencies` run: the output has
no duplicates, every requested name occurs in it, every listed module is
registered, every direct dependency of a listed module appears strictly
before it, and everything in it is a requested name or reachable from one. -/
theorem resolve_ok_spec {reg : Registry} {fuel : Nat} {names out : List Name}
    (h : resolveDependencies reg fuel names = .ok out) :
    out.Nodup ∧ GoodAcc reg out ∧ RegdAcc reg out ∧ (∀ n ∈ names, n ∈ out) ∧
      (∀ x ∈ out, ∃ d ∈ names, x = d ∨ Reaches reg d x) := by
  have hinv := visitList_ok_inv (visitF_ok_inv reg fuel) names [] out h
    (List.nodup_nil) (fun x hx => absurd hx (List.not_mem_nil x))
    (fun x hx => absurd hx (List.not_mem_nil x))
  obtain ⟨⟨hnd, hg, hr, _, _⟩, hmem, hreach⟩ := hinv
  refine ⟨hnd, hg, hr, hmem, ?_⟩
  intro x hx
  rcases hreach x hx with h1 | h2
  · exact absurd h1 (List.not_mem_nil x)
  · exact h2

theorem alookup_mem {α : Type} : ∀ {l : List (Name × α)} {n : Name} {v : α},
    alookup l n = some v → (n, v) ∈ l := by
  intro l
  induction l with
  | nil => intro n v h; cases h
  | cons p l ih =>
    intro n v h
    obtain ⟨k, w⟩ := p
    by_cases hk : n = k
    · subst hk
      simp [alookup] at h
      subst h
      exact List.mem_cons_self _ _
    · simp only [alookup, if_neg hk] at h
      exact List.mem_cons_of_mem _ (ih h)

theorem alookup_isSome_of_mem_keys {α : Type} :
    ∀ {l : List (Name × α)} {n : Name}, n ∈ l.map Prod.fst → (alookup l n).isSome := by
  intro l
  induction l with
  | nil => intro n h; simp at h
  | cons p l ih =>
    intro n h
    obtain ⟨k, v⟩ := p
    by_cases hk : n = k
    · simp [alookup, hk]
    · simp only [List.map_cons, List.mem_cons] at h
      rcases h with h | h
    -- the head case contradicts hk
      · exact absurd h hk
      · simp only [alookup, if_neg hk]
        exact ih h

/-- `reg` is dependency-closed: every declared dependency of a registered
module is itself registered. -/
def ClosedReg (reg : Registry) : Prop :=
  ∀ p ∈ reg, ∀ d ∈ p.2.deps, (alookup reg d).isSome

/-- A rank function witnessing acyclicity of the registry's dependency
graph: along every dependency edge the rank strictly drops.  A finite graph
admits such a function exactly when it is acyclic (topological height). -/
def RankedReg (reg : Registry) (rank : Name → Nat) : Prop :=
  ∀ p ∈ reg, ∀ d ∈ p.2.deps, rank d < rank p.1

theorem ranked_no_self_reach {reg : Registry} {rank : Name → Nat}
    (hrk : RankedReg reg rank) {x y : Name} (h : Reaches reg x y) :
    rank y < rank x := by
  induction h with
  | step hlk hd => exact hrk _ (alookup_mem hlk) _ hd
  | trans _ _ ih1 ih2 => exact lt_trans ih2 ih1

theorem visitList_no_fuelOut {v : Name → List Name → RRes (List Name)} :
    ∀ {ds : List Name}, (∀ d ∈ ds, ∀ a, v d a ≠ .fuelOut) →
      ∀ acc, visitList v ds acc ≠ .fuelOut := by
  intro ds
  induction ds with
  | nil => intro _ acc h; simp [visitList] at h
  | cons d ds ih =>
    intro hv acc h
    simp only [visitList] at h
    cases hv0 : v d acc with
    | ok acc2 =>
      simp only [hv0] at h
      exact ih (fun d' hd' => hv d' (List.mem_cons_of_mem _ hd')) acc2 h
    | err e =>
      simp only [hv0] at h
      cases h
    | fuelOut => exact hv d (List.mem_cons_self _ _) acc hv0

theorem visitF_no_fuelOut {reg : Registry} {rank : Name → Nat}
    (hrk : RankedReg reg rank) :
    ∀ fuel name acc, rank name < fuel → visitF reg fuel name acc ≠ .fuelOut := by
  intro fuel
  induction fuel with
  | zero => intro name acc h; omega
  | succ fuel ih =>
    intro name acc hrank h
    simp only [visitF] at h
    by_cases hmem : name ∈ acc
    · rw [if_pos hmem] at h; cases h
    · rw [if_neg hmem] at h
      cases hlk : alookup reg name with
      | none =>
        simp only [hlk] at h
        cases h
      | some u =>
        simp only [hlk] at h
        have hdeps : ∀ d ∈ u.deps, ∀ a, visitF reg fuel d a ≠ .fuelOut := by
          intro d hd a
          have : rank d < rank name := hrk _ (alookup_mem hlk) _ hd
          exact ih d a (by omega)
        cases hvl : visitList (visitF reg fuel) u.deps acc with
        | ok acc2 =>
          simp only [hvl] at h
          cases h
        | err e =>
          simp only [hvl] at h
          cases h
        | fuelOut => exact visitList_no_fuelOut hdeps acc hvl

theorem visitList_no_err {v : Name → List Name → RRes (List Name)} :
    ∀ {ds : List Name}, (∀ d ∈ ds, ∀ a e, v d a ≠ .err e) →
      ∀ acc e, visitList v ds acc ≠ .err e := by
  intro ds
  induction ds with
  | nil => intro _ acc e h; simp [visitList] at h
  | cons d ds ih =>
    intro hv acc e h
    simp only [visitList] at h
    cases hv0 : v d acc with
    | ok acc2 =>
      simp only [hv0] at h
      exact ih (fun d' hd' => hv d' (List.mem_cons_of_mem _ hd')) acc2 e h
    | err e2 =>
      exact hv d (List.mem_cons_self _ _) acc e2 hv0
    | fuelOut =>
      simp only [hv0] at h
      cases h

theorem visitF_no_err {reg : Registry} (hcl : ClosedReg reg) :
    ∀ fuel name acc e, (alookup reg name).isSome →
      visitF reg fuel name acc ≠ .err e := by
  intro fuel
  induction fuel with
  | zero => intro name acc e _ h; simp [visitF] at h
  | succ fuel ih =>
    intro name acc e hsome h
    simp only [visitF] at h
    by_cases hmem : name ∈ acc
    · rw [if_pos hmem] at h; cases h
    · rw [if_neg hmem] at h
      cases hlk : alookup reg name with
      | none => rw [hlk] at hsome; cases hsome
      | some u =>
        simp only [hlk] at h
        have hdeps : ∀ d ∈ u.deps, ∀ a e2, visitF reg fuel d a ≠ .err e2 := by
          intro d hd a e2
          exact ih d a e2 (hcl _ (alookup_mem hlk) _ hd)
        cases hvl : visitList (visitF reg fuel) u.deps acc with
        | ok acc2 =>
          simp only [hvl] at h
          cases h
        | err e2 => exact visitList_no_err hdeps acc e2 hvl
        | fuelOut =>
          simp only [hvl] at h
          cases h

/-- With a rank certificate of acyclicity, a dependency-closed registry,
registered requested names and enough fuel, resolution succeeds. -/
theorem resolve_total {reg : Registry} {rank : Name → Nat} {fuel : Nat}
    {names : List Name} (hrk : RankedReg reg rank) (hcl : ClosedReg reg)
    (hreg : ∀ n ∈ names, (alookup reg n).isSome)
    (hfuel : ∀ n ∈ names, rank n < fuel) :
    ∃ out, resolveDependencies reg fuel names = .ok out := by
  cases hres : resolveDependencies reg fuel names with
  | ok out => exact ⟨out, rfl⟩
  | err e =>
    exact absurd hres (visitList_no_err
      (fun d hd a e2 => visitF_no_err hcl fuel d a e2 (hreg d hd)) [] e)
  | fuelOut =>
    exact absurd hres (visitList_no_fuelOut
      (fun d hd a => visitF_no_fuelOut hrk fuel d a (hfuel d hd)) [])

/-- Splitting the top-level loop of `resolveDependencies`: visiting
`l1 ++ l2` is visiting `l1`, then (on success) visiting `l2` from the
intermediate accumulator. -/
theorem visitList_append {v : Name → List Name → RRes (List Name)} :
    ∀ (l1 l2 : List Name) (acc : List Name),
      visitList v (l1 ++ l2) acc =
        match visitList v l1 acc with
        | .ok mid => visitList v l2 mid
        | .err e => .err e
        | .fuelOut => .fuelOut := by
  intro l1
  induction l1 with
  | nil => intro l2 acc; simp [visitList]
  | cons d ds ih =>
    intro l2 acc
    simp only [List.cons_append, visitList]
    cases hv0 : v d acc with
    | ok acc2 => exact ih l2 acc2
    | err e => simp
    | fuelOut => simp

/-! ## Characterising the `Update` loops -/

/-- The contribution of one loop iteration of the start loop to `newActive`. -/
def startEntry (reg : Registry) (oldA : Active) (birth : Nat) (n : Name) : Active :=
  match alookup oldA n with
  | some inst => [(n, inst)]
  | none =>
    match alookup reg n with
    | some u => if u.initOk then [(n, ⟨n, birth⟩)] else []
    | none => []

/-- The contribution of one loop iteration of the start loop to the engine. -/
def startRoutes (reg : Registry) (oldA : Active) (n : Name) : List String :=
  match alookup oldA n with
  | some _ => routesOf reg n
  | none =>
    match alookup reg n with
    | some u => if u.initOk then u.routes else []
    | none => []

/-- The contribution of one loop iteration of the start loop to the log. -/
def startEvents (reg : Registry) (oldA : Active) (n : Name) : List Event :=
  match alookup oldA n with
  | some _ => []
  | none =>
    match alookup reg n with
    | some u => [.initCalled n u.initOk]
    | none => []

theorem startLoop_eq (reg : Registry) (oldA : Active) (birth : Nat) :
    ∀ l : List Name, startLoop reg oldA birth l =
      (l.flatMap (startEntry reg oldA birth), l.flatMap (startRoutes reg oldA),
        l.flatMap (startEvents reg oldA)) := by
  intro l
  induction l with
  | nil => simp [startLoop]
  | cons n rest ih =>
    simp only [startLoop, ih, List.flatMap_cons]
    cases ho : alookup oldA n with
    | some inst => simp [startEntry, startRoutes, startEvents, ho]
    | none =>
      cases hr : alookup reg n with
      | some u =>
        by_cases hi : u.initOk
        · simp [startEntry, startRoutes, startEvents, ho, hr, hi]
        · simp [startEntry, startRoutes, startEvents, ho, hr, hi]
      | none => simp [startEntry, startRoutes, startEvents, ho, hr]

theorem alookup_append_of_none {α : Type} {l1 : List (Name × α)} {n : Name}
    (h : alookup l1 n = none) (l2 : List (Name × α)) :
    alookup (l1 ++ l2) n = alookup l2 n := by
  induction l1 with
  | nil => simp
  | cons p l1 ih =>
    obtain ⟨k, v⟩ := p
    by_cases hk : n = k
    · simp [alookup, hk] at h
    · simp only [alookup, if_neg hk] at h
      simp only [List.cons_append, alookup, if_neg hk]
      exact ih h

theorem alookup_append_of_some {α : Type} {l1 : List (Name × α)} {n : Name} {v : α}
    (h : alookup l1 n = some v) (l2 : List (Name × α)) :
    alookup (l1 ++ l2) n = some v := by
  induction l1 with
  | nil => simp [alookup] at h
  | cons p l1 ih =>
    obtain ⟨k, w⟩ := p
    by_cases hk : n = k
    · simp only [alookup, if_pos hk] at h
      simp only [List.cons_append, alookup, if_pos hk]
      exact h
    · simp only [alookup, if_neg hk] at h
      simp only [List.cons_append, alookup, if_neg hk]
      exact ih h

theorem alookup_startEntry_ne {reg : Registry} {oldA : Active} {birth : Nat}
    {n name : Name} (h : ¬(name = n)) :
    alookup (startEntry reg oldA birth n) name = none := by
  unfold startEntry
  cases alookup oldA n with
  | some inst => simp [alookup, h]
  | none =>
    cases alookup reg n with
    | some u =>
      by_cases hi : u.initOk
      · simp [hi, alookup, h]
      · simp [hi, alookup]
    | none => simp [alookup]

theorem startEntry_lookup_kept {reg : Registry} {oldA : Active} {birth : Nat}
    {name : Name} {inst : Inst} (h : alookup oldA name = some inst) :
    alookup (startEntry reg oldA birth name) name = some inst := by
  simp [startEntry, h, alookup]

theorem startEntry_lookup_new {reg : Registry} {oldA : Active} {birth : Nat}
    {name : Name} {u : MUnit} (ho : alookup oldA name = none)
    (hr : alookup reg name = some u) (hi : u.initOk = true) :
    alookup (startEntry reg oldA birth name) name = some ⟨name, birth⟩ := by
  simp [startEntry, ho, hr, hi, alookup]

theorem startEntry_lookup_failed {reg : Registry} {oldA : Active} {birth : Nat}
    {name : Name} {u : MUnit} (ho : alookup oldA name = none)
    (hr : alookup reg name = some u) (hi : u.initOk = false) :
    startEntry reg oldA birth name = [] := by
  simp [startEntry, ho, hr, hi]

/-- Looking a name up in the active set built by the start loop: the first
iteration for that name decides, iterations for other names are invisible. -/
theorem startLoop_lookup_of_entry {reg : Registry} {oldA : Active} {birth : Nat}
    {name : Name} {res : Option Inst}
    (hown : alookup (startEntry reg oldA birth name) name = res) :
    ∀ {l : List Name}, name ∈ l →
      alookup (l.flatMap (startEntry reg oldA birth)) name = res ∨
        (alookup (l.flatMap (startEntry reg oldA birth)) name = none ∧ res = none) := by
  intro l
  induction l with
  | nil => intro h; cases h
  | cons n rest ih =>
    intro hmem
    by_cases hn : name = n
    · subst hn
      rw [List.flatMap_cons]
      cases res with
      | some i =>
        left
        exact alookup_append_of_some hown _
      | none =>
        rw [alookup_append_of_none hown]
        by_cases hrest : name ∈ rest
        · rcases ih hrest with h | ⟨h, _⟩
          · exact Or.inl h
          · exact Or.inr ⟨h, rfl⟩
        · right
          refine ⟨?_, rfl⟩
          clear ih hmem
          induction rest with
          | nil => rfl
          | cons m rest2 ih2 =>
            have hm : ¬(name = m) := fun he => hrest (he ▸ List.mem_cons_self m rest2)
            have hr2 : name ∉ rest2 := fun hmm => hrest (List.mem_cons_of_mem m hmm)
            rw [List.flatMap_cons, alookup_append_of_none (alookup_startEntry_ne hm)]
            exact ih2 hr2
    · have hrest : name ∈ rest := by
        rcases List.mem_cons.mp hmem with h | h
        · exact absurd h hn
        · exact h
      rw [List.flatMap_cons, alookup_append_of_none (alookup_startEntry_ne hn)]
      exact ih hrest

theorem startLoop_lookup_kept {reg : Registry} {oldA : Active} {birth : Nat}
    {name : Name} {inst : Inst} {l : List Name}
    (h : alookup oldA name = some inst) (hl : name ∈ l) :
    alookup (l.flatMap (startEntry reg oldA birth)) name = some inst := by
  rcases startLoop_lookup_of_entry (startEntry_lookup_kept h) hl with h2 | ⟨-, h3⟩
  · exact h2
  · cases h3

theorem startLoop_lookup_new {reg : Registry} {oldA : Active} {birth : Nat}
    {name : Name} {u : MUnit} {l : List Name}
    (ho : alookup oldA name = none) (hr : alookup reg name = some u)
    (hi : u.initOk = true) (hl : name ∈ l) :
    alookup (l.flatMap (startEntry reg oldA birth)) name = some ⟨name, birth⟩ := by
  rcases startLoop_lookup_of_entry (startEntry_lookup_new ho hr hi) hl with h2 | ⟨-, h3⟩
  · exact h2
  · cases h3

theorem startLoop_lookup_none {reg : Registry} {oldA : Active} {birth : Nat}
    {name : Name}
    (hown : alookup (startEntry reg oldA birth name) name = none) :
    ∀ l : List Name, alookup (l.flatMap (startEntry reg oldA birth)) name = none := by
  intro l
  induction l with
  | nil => rfl
  | cons n rest ih =>
    rw [List.flatMap_cons]
    by_cases hn : name = n
    · subst hn
      rw [alookup_append_of_none hown]
      exact ih
    · rw [alookup_append_of_none (alookup_startEntry_ne hn)]
      exact ih

theorem startLoop_lookup_failed {reg : Registry} {oldA : Active} {birth : Nat}
    {name : Name} {u : MUnit}
    (ho : alookup oldA name = none) (hr : alookup reg name = some u)
    (hi : u.initOk = false) (l : List Name) :
    alookup (l.flatMap (startEntry reg oldA birth)) name = none :=
  startLoop_lookup_none (by rw [startEntry_lookup_failed ho hr hi]; rfl) l

theorem startLoop_lookup_isSome {reg : Registry} {oldA : Active} {birth : Nat}
    {name : Name} {l : List Name} (hl : name ∈ l)
    (h : (alookup oldA name).isSome ∨
      ∃ u, alookup reg name = some u ∧ u.initOk = true) :
    (alookup (l.flatMap (startEntry reg oldA birth)) name).isSome := by
  rcases h with h | ⟨u, hr, hi⟩
  · cases ho : alookup oldA name with
    | none => rw [ho] at h; cases h
    | some inst =>
      rw [startLoop_lookup_kept ho hl]
      rfl
  · cases ho : alookup oldA name with
    | some inst =>
      rw [startLoop_lookup_kept ho hl]
      rfl
    | none =>
      rw [startLoop_lookup_new ho hr hi hl]
      rfl

theorem initCalled_mem_startLoop_iff {reg : Registry} {oldA : Active}
    {l : List Name} {name : Name} {bo : Bool} :
    Event.initCalled name bo ∈ l.flatMap (startEvents reg oldA) ↔
      (name ∈ l ∧ alookup oldA name = none ∧
        ∃ u, alookup reg name = some u ∧ u.initOk = bo) := by
  rw [List.mem_flatMap]
  constructor
  · rintro ⟨n, hn, hmem⟩
    unfold startEvents at hmem
    cases ho : alookup oldA n with
    | some i =>
      rw [ho] at hmem
      simp at hmem
    | none =>
      rw [ho] at hmem
      cases hr : alookup reg n with
      | none =>
        rw [hr] at hmem
        simp at hmem
      | some u =>
        rw [hr] at hmem
        rw [List.mem_singleton] at hmem
        injection hmem with h1 h2
        subst h1
        exact ⟨hn, ho, u, hr, h2.symm⟩
  · rintro ⟨hmem, ho, u, hr, hi⟩
    exact ⟨name, hmem, by simp [startEvents, ho, hr, hi]⟩

theorem startLoop_events_shape {reg : Registry} {oldA : Active} {l : List Name} :
    ∀ e ∈ l.flatMap (startEvents reg oldA), ∃ n bo, e = Event.initCalled n bo := by
  intro e he
  rw [List.mem_flatMap] at he
  obtain ⟨n, -, hmem⟩ := he
  unfold startEvents at hmem
  cases ho : alookup oldA n with
  | some i =>
    rw [ho] at hmem
    simp at hmem
  | none =>
    rw [ho] at hmem
    cases hr : alookup reg n with
    | none =>
      rw [hr] at hmem
      simp at hmem
    | some u =>
      rw [hr] at hmem
      rw [List.mem_singleton] at hmem
      exact ⟨n, u.initOk, hmem⟩

theorem startLoop_routes_mem {reg : Registry} {oldA : Active} {l : List Name}
    {name : Name} {mv : MUnit} {rt : String}
    (hl : name ∈ l) (hr : alookup reg name = some mv)
    (hok : (alookup oldA name).isSome ∨ mv.initOk = true) (hrt : rt ∈ mv.routes) :
    rt ∈ l.flatMap (startRoutes reg oldA) := by
  rw [List.mem_flatMap]
  refine ⟨name, hl, ?_⟩
  unfold startRoutes
  cases ho : alookup oldA name with
  | some i => simp [routesOf, hr, hrt]
  | none =>
    rcases hok with h | hi
    · rw [ho] at h
      cases h
    · simp [hr, hi, hrt]

theorem shutLoop_empty {oldA newA : Active} :
    ∀ {l : List Name}, (∀ n ∈ l, (alookup newA n).isSome ∨ alookup oldA n = none) →
      shutLoop oldA newA l = [] := by
  intro l
  induction l with
  | nil => intro _; rfl
  | cons n rest ih =>
    intro h
    have hrest := ih (fun m hm => h m (List.mem_cons_of_mem n hm))
    rcases h n (List.mem_cons_self n rest) with hs | ho
    · simp only [shutLoop, if_pos hs, List.nil_append]
      exact hrest
    · simp only [shutLoop, ho]
      rw [hrest]
      cases (alookup newA n).isSome <;> simp

/-- `Update` after a successful resolve, in closed form. -/
theorem Update_ok_eq {reg : Registry} {fuel : Nat} {mods : List Name}
    {active : Active} {birth : Nat} {ordered : List Name}
    (hres : resolveDependencies reg fuel mods = .ok ordered) :
    Update reg fuel mods active birth = some
      ⟨ordered.flatMap (startRoutes reg active),
        ordered.flatMap (startEntry reg active birth),
        ordered.flatMap (startEvents reg active) ++
          shutLoop active (ordered.flatMap (startEntry reg active birth))
            ordered.reverse,
        none⟩ := by
  simp [Update, hres, startLoop_eq]

/-- The shutdown loop of `Update` is dead code: every name it inspects comes
from the new resolved order, and such a name that was in the old active set
was kept into `newActive`, so the loop's condition never fires.  No
reconciliation ever calls any module's `Shutdown`. -/
theorem update_no_shutdown {reg : Registry} {fuel : Nat} {mods : List Name}
    {active : Active} {birth : Nat} {res : UpdateResult}
    (h : Update reg fuel mods active birth = some res) :
    ∀ n, Event.shutdownCalled n ∉ res.events := by
  intro n hmem
  cases hres : resolveDependencies reg fuel mods with
  | fuelOut =>
    simp [Update, hres] at h
  | err e =>
    simp only [Update, hres, Option.some.injEq] at h
    rw [← h] at hmem
    simp at hmem
  | ok ordered =>
    rw [Update_ok_eq hres] at h
    injection h with h2
    rw [← h2] at hmem
    simp only at hmem
    have hshut : shutLoop active (ordered.flatMap (startEntry reg active birth))
        ordered.reverse = [] := by
      apply shutLoop_empty
      intro m hm
      rw [List.mem_reverse] at hm
      cases ho : alookup active m with
      | some i =>
        exact Or.inl (startLoop_lookup_isSome hm (Or.inl (by rw [ho]; rfl)))
      | none => exact Or.inr rfl
    rw [hshut, List.append_nil] at hmem
    obtain ⟨m, bo, habs⟩ := startLoop_events_shape _ hmem
    cases habs

/-- The shutdown loop over the resolved order is always empty: an old-active
name in the order was kept, so its `newActive` lookup succeeds. -/
theorem update_shutLoop_empty (reg : Registry) (active : Active) (birth : Nat)
    (ordered : List Name) :
    shutLoop active (ordered.flatMap (startEntry reg active birth))
      ordered.reverse = [] := by
  apply shutLoop_empty
  intro m hm
  rw [List.mem_reverse] at hm
  cases ho : alookup active m with
  | some i => exact Or.inl (startLoop_lookup_isSome hm (Or.inl (by rw [ho]; rfl)))
  | none => exact Or.inr rfl

/-- If every processed name is already in the old active set, the start loop
performs no `Init` at all. -/
theorem startLoop_events_empty {reg : Registry} {oldA : Active} :
    ∀ {l : List Name}, (∀ n ∈ l, (alookup oldA n).isSome) →
      l.flatMap (startEvents reg oldA) = [] := by
  intro l
  induction l with
  | nil => intro _; rfl
  | cons n rest ih =>
    intro h
    rw [List.flatMap_cons, ih (fun m hm => h m (List.mem_cons_of_mem n hm))]
    cases ho : alookup oldA n with
    | none =>
      have := h n (List.mem_cons_self n rest)
      rw [ho] at this
      cases this
    | some i => simp [startEvents, ho]

/-- Maximal munch over a class that cannot contain the follow character. -/
theorem takeWhile_all_append {p : Char → Bool} :
    ∀ {xs : List Char} {y : Char} (ys : List Char), (∀ c ∈ xs, p c = true) →
      p y = false →
      (xs ++ y :: ys).takeWhile p = xs ∧ (xs ++ y :: ys).dropWhile p = y :: ys := by
  intro xs
  induction xs with
  | nil =>
    intro y ys _ hy
    simp [List.takeWhile_cons, List.dropWhile_cons, hy]
  | cons c xs ih =>
    intro y ys hall hy
    have hc : p c = true := hall c (List.mem_cons_self c xs)
    have hrest : ∀ a ∈ xs, p a = true := fun a ha => hall a (List.mem_cons_of_mem c ha)
    obtain ⟨ht, hd⟩ := ih ys hrest hy
    simp only [List.cons_append, List.takeWhile_cons, List.dropWhile_cons, hc]
    constructor
    · simp [ht]
    · simp [hd]

theorem parseVar_key_only {key rest : List Char} (hk : key ≠ [])
    (hkc : ∀ c ∈ key, isKeyChar c = true) :
    parseVar (key ++ '}' :: rest) = some (key, none, rest) := by
  obtain ⟨ht, hd⟩ := takeWhile_all_append rest hkc
    (show isKeyChar '}' = false by decide)
  unfold parseVar
  rw [ht, hd, if_neg hk]
  rfl

theorem parseVar_key_dflt {key dflt rest : List Char} (hk : key ≠ [])
    (hkc : ∀ c ∈ key, isKeyChar c = true) (hdne : dflt ≠ [])
    (hdc : ∀ c ∈ dflt, notRBrace c = true) :
    parseVar (key ++ ':' :: (dflt ++ '}' :: rest)) = some (key, some dflt, rest) := by
  obtain ⟨ht, hd⟩ := takeWhile_all_append (dflt ++ '}' :: rest) hkc
    (show isKeyChar ':' = false by decide)
  obtain ⟨ht2, hd2⟩ := takeWhile_all_append rest hdc
    (show notRBrace '}' = false by decide)
  unfold parseVar
  rw [ht, hd, if_neg hk]
  have hred : (match ':' :: (dflt ++ '}' :: rest) with
      | '}' :: r2 => (some (key, none, r2) : Option (List Char × Option (List Char) × List Char))
      | ':' :: r2 =>
        if List.takeWhile notRBrace r2 = [] then none
        else
          match List.dropWhile notRBrace r2 with
          | '}' :: r4 => some (key, some (List.takeWhile notRBrace r2), r4)
          | _ => none
      | _ => none) =
      (if List.takeWhile notRBrace (dflt ++ '}' :: rest) = [] then none
       else
        match List.dropWhile notRBrace (dflt ++ '}' :: rest) with
        | '}' :: r4 => some (key, some (List.takeWhile notRBrace (dflt ++ '}' :: rest)), r4)
        | _ => none) := rfl
  rw [hred, ht2, hd2, if_neg hdne]
  rfl

/-! ## Claims -/

/-- Claim C1 (the code, evaluated at the failing input): reconciling from an
active set holding `auth` and `order` to the empty requested set performs no
`Shutdown` call at all — the event log of the reconciliation is empty — and
silently drops both units from the active set.  The claimed behaviour
(shut down `order` strictly before `auth`) does not occur: the shutdown loop
iterates over the *new* resolved order, in which a removed unit never
appears, so the loop body never fires for any removed unit. -/
theorem c1_removed_units_dropped_without_shutdown :
    Update theRegistry 5 [] [("auth", ⟨"auth", 0⟩), ("order", ⟨"order", 0⟩)] 1 =
      some ⟨[], [], [], none⟩ := by
  decide

/-- Claim C2, counterexample: with surface `/user` published and `user`
active, a reconciliation whose resolution fails (unknown unit `ghost`)
leaves the active set untouched but publishes the fresh empty engine that
`Update` returned, so a reader afterwards obtains the empty surface, not the
previously published one — contradicting the claim that the failed
reconciliation publishes no new surface. -/
theorem c2_counterexample :
    rebuildRouter theRegistry 5 ["ghost"] ⟨["/user"], [("user", ⟨"user", 0⟩)]⟩ 1 =
      some ⟨[], [("user", ⟨"user", 0⟩)]⟩ ∧
    handler (⟨[], [("user", ⟨"user", 0⟩)]⟩ : SysState) ≠
      handler (⟨["/user"], [("user", ⟨"user", 0⟩)]⟩ : SysState) := by
  decide

/-- Claim C2 (amended): a reconciliation whose dependency resolution fails
mutates no manager state — the active set is left exactly as it was — but it
does publish a new surface: the fresh empty engine returned by `Update`
replaces the previously published one, and that empty surface is what
readers obtain afterwards. -/
theorem c2_failed_resolution_keeps_active_publishes_empty
    {reg : Registry} {fuel : Nat} {mods : List Name} {s : SysState}
    {birth : Nat} {e : Name}
    (h : resolveDependencies reg fuel mods = .err e) :
    rebuildRouter reg fuel mods s birth = some ⟨[], s.active⟩ := by
  simp [rebuildRouter, Update, h]

theorem c2_witness :
    rebuildRouter theRegistry 5 ["ghost"] ⟨["/user"], [("user", ⟨"user", 0⟩)]⟩ 2 =
      some ⟨[], [("user", ⟨"user", 0⟩)]⟩ :=
  c2_failed_resolution_keeps_active_publishes_empty
    (show resolveDependencies theRegistry 5 ["ghost"] = .err "ghost" by decide)

/-- A one-module registry whose module depends on itself. -/
def cycReg : Registry := [("a", ⟨["a"], true, []⟩)]

/-- `resolveDependencies` terminates on the given input: some recursion
budget yields a definitive result (a value or an error). -/
def ResolveTerminates (reg : Registry) (names : List Name) : Prop :=
  ∃ fuel, resolveDependencies reg fuel names ≠ .fuelOut

theorem cycReg_visit_fuelOut :
    ∀ (fuel : Nat) (acc : List Name), "a" ∉ acc →
      visitF cycReg fuel "a" acc = .fuelOut := by
  intro fuel
  induction fuel with
  | zero => intro acc _; rfl
  | succ fuel ih =>
    intro acc h
    simp only [visitF, if_neg h]
    rw [show alookup cycReg "a" = some ⟨["a"], true, []⟩ from rfl]
    simp only [visitList, ih acc h]

/-- Claim C3, counterexample: on the registry where `a` depends on itself,
resolution of `["a"]` does not terminate — every recursion budget is
exhausted.  In the Go source this is an unbounded recursion: the claimed
`CyclicDependency` failure never happens (no such error exists in the
code). -/
theorem c3_counterexample : ¬ ResolveTerminates cycReg ["a"] := by
  rintro ⟨fuel, h⟩
  apply h
  show visitList (visitF cycReg fuel) ["a"] [] = .fuelOut
  simp only [visitList, cycReg_visit_fuelOut fuel [] (List.not_mem_nil "a")]

/-- Claim C3 (amended): when a dependency cycle is reachable from the
requested set, resolution never returns an order, whatever the recursion
budget: it either fails earlier with `unknown module` or fails to terminate.
The code performs no cycle detection and has no `CyclicDependency` error. -/
theorem c3_reachable_cycle_never_returns_order
    {reg : Registry} {fuel : Nat} {names : List Name} {c : Name}
    (hc : c ∈ names ∨ ∃ n ∈ names, Reaches reg n c)
    (hcyc : Reaches reg c c) :
    ∀ out, resolveDependencies reg fuel names ≠ .ok out := by
  intro out hres
  obtain ⟨-, hg, -, hmem, -⟩ := resolve_ok_spec hres
  have hcin : c ∈ out := by
    rcases hc with h | ⟨n, hn, hreach⟩
    · exact hmem c h
    · exact (good_reaches hg hreach (hmem n hn)).1
  exact good_no_self_reach hg hcin hcyc

theorem c3_witness :
    resolveDependencies cycReg 7 ["a"] ≠ .ok ["a"] := by
  have hcyc : Reaches cycReg "a" "a" :=
    Reaches.step (show alookup cycReg "a" = some ⟨["a"], true, []⟩ from rfl)
      (List.mem_singleton.mpr rfl)
  exact c3_reachable_cycle_never_returns_order (Or.inl (by decide)) hcyc ["a"]

/-- The topological-height certificate of the actual registry. -/
def theRank : Name → Nat := fun n => if n = "order" then 1 else 0

/-- Claim C5: on a registry whose dependency graph is acyclic (witnessed by
a rank function that drops along every dependency edge) and dependency-
closed, resolving any list of registered names succeeds (given fuel above
the requested names' ranks), and the resulting order lists every unit at
most once (no duplicates, even for shared dependencies), contains every
requested name, and places every unit strictly after each of its transitive
dependencies. -/
theorem c5_acyclic_resolution_topological {reg : Registry} {rank : Name → Nat}
    {fuel : Nat} {names : List Name}
    (hrk : RankedReg reg rank) (hcl : ClosedReg reg)
    (hreg : ∀ n ∈ names, (alookup reg n).isSome)
    (hfuel : ∀ n ∈ names, rank n < fuel) :
    ∃ out, resolveDependencies reg fuel names = .ok out ∧ out.Nodup ∧
      (∀ n ∈ names, n ∈ out) ∧
      (∀ x ∈ out, ∀ y, Reaches reg x y → y ∈ out ∧ idxOf y out < idxOf x out) := by
  obtain ⟨out, hres⟩ := resolve_total hrk hcl hreg hfuel
  obtain ⟨hnd, hg, -, hmem, -⟩ := resolve_ok_spec hres
  exact ⟨out, hres, hnd, hmem, fun x hx y hr => good_reaches hg hr hx⟩

theorem c5_witness :
    ∃ out, resolveDependencies theRegistry 5 ["order", "auth"] = .ok out ∧
      out.Nodup ∧ (∀ n ∈ (["order", "auth"] : List Name), n ∈ out) ∧
      (∀ x ∈ out, ∀ y, Reaches theRegistry x y →
        y ∈ out ∧ idxOf y out < idxOf x out) :=
  c5_acyclic_resolution_topological
    (show RankedReg theRegistry theRank by unfold RankedReg; decide)
    (show ClosedReg theRegistry by unfold ClosedReg; decide)
    (by decide) (by decide)

/-- Claim C6: a unit present in both the old active set and the newly
resolved order keeps its identical instance in the new active set and
receives neither `Init` nor `Shutdown` — regardless of any configuration
change, which `Update` never examines for kept units; consequently a second
reconciliation with the identical requested set (after a first one that left
every resolved unit active) performs no `Init` and no `Shutdown` at all and
maps every resolved name to the same instance as before. -/
theorem c6_kept_units_not_restarted :
    (∀ (reg : Registry) (fuel : Nat) (mods : List Name) (active : Active)
        (birth : Nat) (ordered : List Name) (name : Name) (inst : Inst),
      resolveDependencies reg fuel mods = .ok ordered → name ∈ ordered →
      alookup active name = some inst →
      ∃ res, Update reg fuel mods active birth = some res ∧
        alookup res.newActive name = some inst ∧
        (∀ bo, Event.initCalled name bo ∉ res.events) ∧
        Event.shutdownCalled name ∉ res.events) ∧
    (∀ (reg : Registry) (fuel : Nat) (mods : List Name) (active : Active)
        (b1 b2 : Nat) (ordered : List Name) (res1 : UpdateResult),
      resolveDependencies reg fuel mods = .ok ordered →
      Update reg fuel mods active b1 = some res1 →
      (∀ n ∈ ordered, (alookup active n).isSome ∨
        ∃ u, alookup reg n = some u ∧ u.initOk = true) →
      ∃ res2, Update reg fuel mods res1.newActive b2 = some res2 ∧
        res2.events = [] ∧
        (∀ n ∈ ordered, alookup res2.newActive n = alookup res1.newActive n)) := by
  constructor
  · intro reg fuel mods active birth ordered name inst hres hmem hold
    refine ⟨_, Update_ok_eq hres, ?_, ?_, ?_⟩
    · dsimp only
      exact startLoop_lookup_kept hold hmem
    · intro bo hin
      dsimp only at hin
      rw [update_shutLoop_empty reg active birth ordered, List.append_nil] at hin
      rw [initCalled_mem_startLoop_iff] at hin
      obtain ⟨-, ho, -⟩ := hin
      rw [hold] at ho
      cases ho
    · intro hin
      dsimp only at hin
      rw [update_shutLoop_empty reg active birth ordered, List.append_nil] at hin
      obtain ⟨m, bo, habs⟩ := startLoop_events_shape _ hin
      cases habs
  · intro reg fuel mods active b1 b2 ordered res1 hres h1 hcov
    rw [Update_ok_eq hres] at h1
    injection h1 with h1
    have hcov2 : ∀ n ∈ ordered, (alookup res1.newActive n).isSome := by
      intro n hn
      rw [← h1]
      dsimp only
      exact startLoop_lookup_isSome hn (hcov n hn)
    refine ⟨_, Update_ok_eq hres, ?_, ?_⟩
    · dsimp only
      rw [update_shutLoop_empty reg res1.newActive b2 ordered, List.append_nil]
      exact startLoop_events_empty hcov2
    · intro n hn
      dsimp only
      obtain ⟨i, hi⟩ := Option.isSome_iff_exists.mp (hcov2 n hn)
      rw [startLoop_lookup_kept hi hn, hi]

theorem c6_witness :
    (∃ res, Update theRegistry 5 ["user"] [("user", ⟨"user", 0⟩)] 1 = some res ∧
      alookup res.newActive "user" = some ⟨"user", 0⟩ ∧
      (∀ bo, Event.initCalled "user" bo ∉ res.events) ∧
      Event.shutdownCalled "user" ∉ res.events) ∧
    (∃ res2, Update theRegistry 5 ["user"]
        (⟨["/user"], [("user", ⟨"user", 0⟩)],
          [Event.initCalled "user" true], none⟩ : UpdateResult).newActive 2 =
        some res2 ∧
      res2.events = [] ∧
      (∀ n ∈ (["user"] : List Name),
        alookup res2.newActive n =
          alookup (⟨["/user"], [("user", ⟨"user", 0⟩)],
            [Event.initCalled "user" true], none⟩ : UpdateResult).newActive n)) :=
  ⟨c6_kept_units_not_restarted.1 theRegistry 5 ["user"] [("user", ⟨"user", 0⟩)] 1
      ["user"] "user" ⟨"user", 0⟩ (by decide) (by decide) (by decide),
    c6_kept_units_not_restarted.2 theRegistry 5 ["user"] [] 0 2 ["user"]
      ⟨["/user"], [("user", ⟨"user", 0⟩)], [Event.initCalled "user" true], none⟩
      (by decide) (by decide) (by decide)⟩

/-- A registry with a unit whose `Init` fails. -/
def failReg : Registry :=
  [("good", ⟨[], true, ["/good"]⟩), ("bad", ⟨[], false, ["/bad"]⟩)]

/-- Claim C7: when a unit's `Init` fails during reconciliation, that unit is
left out of the new active set while its failure is recorded in the log, and
every other resolved unit that is kept or initialises successfully still
ends up active with all of its routes present in the returned surface — one
unit's failure does not abort the reconciliation. -/
theorem c7_init_failure_is_isolated
    {reg : Registry} {fuel : Nat} {mods : List Name} {active : Active}
    {birth : Nat} {ordered : List Name} {u : Name} {mu : MUnit}
    (hres : resolveDependencies reg fuel mods = .ok ordered)
    (hu : u ∈ ordered) (huold : alookup active u = none)
    (hureg : alookup reg u = some mu) (hufail : mu.initOk = false) :
    ∃ res, Update reg fuel mods active birth = some res ∧
      alookup res.newActive u = none ∧
      Event.initCalled u false ∈ res.events ∧
      ∀ v mv, v ∈ ordered → alookup reg v = some mv →
        ((alookup active v).isSome ∨ mv.initOk = true) →
        (alookup res.newActive v).isSome ∧ ∀ rt ∈ mv.routes, rt ∈ res.router := by
  refine ⟨_, Update_ok_eq hres, ?_, ?_, ?_⟩
  · dsimp only
    exact startLoop_lookup_failed huold hureg hufail ordered
  · dsimp only
    refine List.mem_append_left _ ?_
    rw [initCalled_mem_startLoop_iff]
    exact ⟨hu, huold, mu, hureg, hufail⟩
  · intro v mv hv hrv hok
    dsimp only
    constructor
    · apply startLoop_lookup_isSome hv
      rcases hok with h | h
      · exact Or.inl h
      · exact Or.inr ⟨mv, hrv, h⟩
    · intro rt hrt
      exact startLoop_routes_mem hv hrv hok hrt

theorem c7_witness :
    ∃ res, Update failReg 5 ["good", "bad"] [] 0 = some res ∧
      alookup res.newActive "bad" = none ∧
      Event.initCalled "bad" false ∈ res.events ∧
      ∀ v mv, v ∈ (["good", "bad"] : List Name) → alookup failReg v = some mv →
        ((alookup ([] : Active) v).isSome ∨ mv.initOk = true) →
        (alookup res.newActive v).isSome ∧ ∀ rt ∈ mv.routes, rt ∈ res.router :=
  c7_init_failure_is_isolated
    (show resolveDependencies failReg 5 ["good", "bad"] = .ok ["good", "bad"]
      by decide)
    (by decide) (by decide)
    (show alookup failReg "bad" = some ⟨[], false, ["/bad"]⟩ by decide)
    (by decide)

/-- A registry like `failReg` but without the failing unit. -/
def goodReg : Registry := [("good", ⟨[], true, ["/good"]⟩)]

/-- Claim C4, counterexample: two reconciliations — one in which unit `bad`
is requested and its `Init` fails, one in which `bad` is not requested at
all — return exactly the same value (`Update`'s Go return value is just the
engine).  The init failure is visible only in the side-effect log of the
first run, so the value returned by the reconcile entry point cannot contain
the error collection the claim describes. -/
theorem c4_counterexample :
    Option.map UpdateResult.router (Update failReg 5 ["good", "bad"] [] 0) =
      Option.map UpdateResult.router (Update goodReg 5 ["good"] [] 0) ∧
    Event.initCalled "bad" false ∈
      Option.elim (Update failReg 5 ["good", "bad"] [] 0) [] UpdateResult.events ∧
    Event.initCalled "bad" false ∉
      Option.elim (Update goodReg 5 ["good"] [] 0) [] UpdateResult.events := by
  decide

/-- Claim C4 (amended): the reconcile entry point returns only the new
capability surface; per-unit errors are reported only as side effects.  The
side-effect log nevertheless records exactly the units whose `Init` failed
(each such unit is also excluded from the new active set), and records no
shutdown errors because no `Shutdown` is ever invoked. -/
theorem c4_unit_errors_only_in_log
    {reg : Registry} {fuel : Nat} {mods : List Name} {active : Active}
    {birth : Nat} {ordered : List Name}
    (hres : resolveDependencies reg fuel mods = .ok ordered) :
    ∃ res, Update reg fuel mods active birth = some res ∧
      (∀ n, Event.initCalled n false ∈ res.events ↔
        (n ∈ ordered ∧ alookup active n = none ∧
          ∃ u, alookup reg n = some u ∧ u.initOk = false)) ∧
      ∀ n, Event.shutdownCalled n ∉ res.events := by
  refine ⟨_, Update_ok_eq hres, ?_, ?_⟩
  · intro n
    dsimp only
    rw [update_shutLoop_empty reg active birth ordered, List.append_nil]
    exact initCalled_mem_startLoop_iff
  · exact update_no_shutdown (Update_ok_eq hres)

theorem c4_witness :
    ∃ res, Update failReg 5 ["good", "bad"] [] 3 = some res ∧
      (∀ n, Event.initCalled n false ∈ res.events ↔
        (n ∈ (["good", "bad"] : List Name) ∧ alookup ([] : Active) n = none ∧
          ∃ u, alookup failReg n = some u ∧ u.initOk = false)) ∧
      ∀ n, Event.shutdownCalled n ∉ res.events :=
  c4_unit_errors_only_in_log
    (show resolveDependencies failReg 5 ["good", "bad"] = .ok ["good", "bad"]
      by decide)

/-- Claim C8: the resolved order is a pure function of the requested
sequence and the dependency declarations (the embedding is a function, so
determinism is inherent); a requested name not transitively covered by any
earlier requested name appears in the output strictly after everything
contributed by the earlier requested names — hence uncovered requested names
keep their original relative input order; and ties are broken by
first-discovery order, not by name: requesting `user` before `auth` yields
the order `user, auth` (not the alphabetical `auth, user`), while
dependencies still come first (`order, user` resolves to
`auth, order, user`). -/
theorem c8_resolved_order_deterministic :
    (∀ (reg : Registry) (fuel : Nat) (l1 l2 out : List Name) (ni nj : Name),
      resolveDependencies reg fuel (l1 ++ nj :: l2) = .ok out →
      (∀ x ∈ l1, ¬(nj = x) ∧ ¬ Reaches reg x nj) →
      ni ∈ l1 →
      idxOf ni out < idxOf nj out) ∧
    resolveDependencies theRegistry 5 ["user", "auth"] = .ok ["user", "auth"] ∧
    resolveDependencies theRegistry 5 ["order", "user"] =
      .ok ["auth", "order", "user"] := by
  refine ⟨?_, by decide, by decide⟩
  intro reg fuel l1 l2 out ni nj hres huncov hni
  unfold resolveDependencies at hres
  rw [visitList_append] at hres
  cases hmid : visitList (visitF reg fuel) l1 [] with
  | ok acc1 =>
    simp only [hmid] at hres
    obtain ⟨⟨hnd1, hg1, hr1, -⟩, hmem1, hreach1⟩ :=
      visitList_ok_inv (visitF_ok_inv reg fuel) l1 [] acc1 hmid List.nodup_nil
        (fun x hx => absurd hx (List.not_mem_nil x))
        (fun x hx => absurd hx (List.not_mem_nil x))
    have hni1 : ni ∈ acc1 := hmem1 ni hni
    have hnj1 : nj ∉ acc1 := by
      intro hin
      rcases hreach1 nj hin with habs | ⟨d, hd, hcase⟩
      · exact absurd habs (List.not_mem_nil nj)
      · rcases hcase with heq | hr
        · exact (huncov d hd).1 heq
        · exact (huncov d hd).2 hr
    obtain ⟨⟨-, -, -, t, ht⟩, -, -⟩ :=
      visitList_ok_inv (visitF_ok_inv reg fuel) (nj :: l2) acc1 out hres hnd1 hg1 hr1
    subst ht
    rw [idxOf_append_left t hni1, idxOf_append_right t hnj1]
    have h1 := idxOf_lt_length hni1
    omega
  | err e =>
    simp only [hmid] at hres
    cases hres
  | fuelOut =>
    simp only [hmid] at hres
    cases hres

theorem c8_witness :
    resolveDependencies theRegistry 5 ["user", "order"] =
      .ok ["user", "auth", "order"] ∧
    idxOf "user" ["user", "auth", "order"] <
      idxOf "order" ["user", "auth", "order"] := by
  refine ⟨by decide, ?_⟩
  have huncov : ∀ x ∈ (["user"] : List Name),
      ¬(("order" : Name) = x) ∧ ¬ Reaches theRegistry x "order" := by
    intro x hx
    have hx2 : x = "user" := by simpa using hx
    subst hx2
    refine ⟨by decide, fun hr => ?_⟩
    have := ranked_no_self_reach (show RankedReg theRegistry theRank by unfold RankedReg; decide) hr
    exact absurd this (by decide)
  exact c8_resolved_order_deterministic.1 theRegistry 5 ["user"] []
    ["user", "auth", "order"] "user" "order" (by decide) huncov (by decide)

theorem expandEnvL_match_some {env : String → String} {r2 key : List Char}
    {dflt : Option (List Char)} {rest2 : List Char}
    (h : parseVar r2 = some (key, dflt, rest2)) :
    expandEnvL env ('$' :: '{' :: r2) =
      replaceVar env key dflt ++ expandEnvL env rest2 := by
  rw [expandEnvL.eq_2, if_pos rfl]
  split
  case _ keyb dfltb rest2b heq =>
    rw [h] at heq
    injection heq with heq2
    injection heq2 with hk hrest
    injection hrest with hd hr
    subst hk
    subst hd
    subst hr
    rfl
  case _ heq =>
    rw [h] at heq
    cases heq

theorem expandEnvL_match_none {env : String → String} {r2 : List Char}
    (h : parseVar r2 = none) :
    expandEnvL env ('$' :: '{' :: r2) = '$' :: expandEnvL env ('{' :: r2) := by
  rw [expandEnvL.eq_2, if_pos rfl]
  split
  case _ keyb dfltb rest2b heq =>
    rw [h] at heq
    cases heq
  case _ => rfl

theorem expandEnvL_cons_ne {env : String → String} {c : Char} {rest : List Char}
    (hc : ¬(c = '$')) :
    expandEnvL env (c :: rest) = c :: expandEnvL env rest := by
  rcases rest with _ | ⟨c2, r⟩
  · have heq := expandEnvL.eq_3 env c [] (fun r2 h => by cases h)
    rw [heq, if_neg hc]
  · by_cases hc2 : c2 = '{'
    · subst hc2
      rw [expandEnvL.eq_2, if_neg hc]
    · have heq := expandEnvL.eq_3 env c (c2 :: r)
        (fun r2 h => hc2 (by injection h))
      rw [heq, if_neg hc]

theorem expandEnvL_dollar_nolbrace {env : String → String} {c2 : Char}
    {rest : List Char} (hc : ¬(c2 = '{')) :
    expandEnvL env ('$' :: c2 :: rest) = '$' :: expandEnvL env (c2 :: rest) := by
  have heq := expandEnvL.eq_3 env '$' (c2 :: rest)
    (fun r2 h => hc (by injection h))
  rw [heq, if_pos rfl]

theorem expandEnvL_dollar_nil {env : String → String} :
    expandEnvL env ['$'] = '$' :: expandEnvL env [] := by
  have heq := expandEnvL.eq_3 env '$' [] (fun r2 h => by cases h)
  rw [heq, if_pos rfl]

/-- Claim C10: each occurrence of a `${VAR:default}` pattern is replaced by
the environment value of `VAR` when that is nonempty and by the (necessarily
nonempty) default otherwise; each `${VAR}` pattern is replaced by the
environment value when nonempty and left as the original text otherwise
(`os.Getenv` returns the empty string both for unset variables and for
variables set to the empty string, so the two are indistinguishable here);
every character that does not begin a pattern — any non-dollar character,
and any dollar not followed by a full match — is copied unchanged. -/
theorem c10_expand_env_per_occurrence :
    (∀ (env : String → String) (key dflt rest : List Char),
      key ≠ [] → (∀ c ∈ key, isKeyChar c = true) →
      dflt ≠ [] → (∀ c ∈ dflt, notRBrace c = true) →
      expandEnvL env ('$' :: '{' :: (key ++ ':' :: (dflt ++ '}' :: rest))) =
        (if (env (String.mk key)).data = [] then dflt
         else (env (String.mk key)).data) ++ expandEnvL env rest) ∧
    (∀ (env : String → String) (key rest : List Char),
      key ≠ [] → (∀ c ∈ key, isKeyChar c = true) →
      expandEnvL env ('$' :: '{' :: (key ++ '}' :: rest)) =
        (if (env (String.mk key)).data = [] then '$' :: '{' :: key ++ ['}']
         else (env (String.mk key)).data) ++ expandEnvL env rest) ∧
    (∀ (env : String → String) (c : Char) (rest : List Char), ¬(c = '$') →
      expandEnvL env (c :: rest) = c :: expandEnvL env rest) ∧
    (∀ (env : String → String) (rest : List Char),
      (match rest with | '{' :: r2 => parseVar r2 = none | _ => True) →
      expandEnvL env ('$' :: rest) = '$' :: expandEnvL env rest) := by
  refine ⟨?_, ?_, ?_, ?_⟩
  · intro env key dflt rest hk hkc hdne hdc
    rw [expandEnvL_match_some (parseVar_key_dflt hk hkc hdne hdc)]
    unfold replaceVar
    by_cases hv : (env (String.mk key)).data = []
    · simp [hv, hdne]
    · simp [hv]
  · intro env key rest hk hkc
    rw [expandEnvL_match_some (parseVar_key_only hk hkc)]
    unfold replaceVar
    by_cases hv : (env (String.mk key)).data = []
    · simp [hv]
    · simp [hv]
  · intro env c rest hc
    exact expandEnvL_cons_ne hc
  · intro env rest hrest
    cases rest with
    | nil => exact expandEnvL_dollar_nil
    | cons c2 r2 =>
      by_cases hc : c2 = '{'
      · subst hc
        exact expandEnvL_match_none hrest
      · exact expandEnvL_dollar_nolbrace hc

theorem c10_witness :
    (expandEnvL (fun s => if s = "A" then "val" else "")
        ('$' :: '{' :: (['B'] ++ ':' :: (['d'] ++ '}' :: ['z']))) =
      (if ((fun s => if s = "A" then "val" else "") (String.mk ['B'])).data = []
       then ['d']
       else ((fun s => if s = "A" then "val" else "") (String.mk ['B'])).data) ++
        expandEnvL (fun s => if s = "A" then "val" else "") ['z']) ∧
    (expandEnvL (fun s => if s = "A" then "val" else "")
        ('$' :: '{' :: (['A'] ++ '}' :: [])) =
      (if ((fun s => if s = "A" then "val" else "") (String.mk ['A'])).data = []
       then '$' :: '{' :: ['A'] ++ ['}']
       else ((fun s => if s = "A" then "val" else "") (String.mk ['A'])).data) ++
        expandEnvL (fun s => if s = "A" then "val" else "") []) ∧
    (expandEnvL (fun s => if s = "A" then "val" else "") ('x' :: ['y']) =
      'x' :: expandEnvL (fun s => if s = "A" then "val" else "") ['y']) ∧
    (expandEnvL (fun s => if s = "A" then "val" else "") ('$' :: ['q']) =
      '$' :: expandEnvL (fun s => if s = "A" then "val" else "") ['q']) :=
  ⟨c10_expand_env_per_occurrence.1 (fun s => if s = "A" then "val" else "")
      ['B'] ['d'] ['z'] (by decide) (by decide) (by decide) (by decide),
    c10_expand_env_per_occurrence.2.1 (fun s => if s = "A" then "val" else "")
      ['A'] [] (by decide) (by decide),
    c10_expand_env_per_occurrence.2.2.1 (fun s => if s = "A" then "val" else "")
      'x' ['y'] (by decide),
    c10_expand_env_per_occurrence.2.2.2 (fun s => if s = "A" then "val" else "")
      ['q'] (by exact trivial)⟩

end ImportAuto
